import Mathlib

/-!
Verification development for the tree-building and aggregation engine of
`StructView.py` (FileStructView).  The Python source is shallowly embedded:
each Python function of the core is translated into an executable Lean
definition operating on explicit data (directory listings, archive entry
listings) instead of performing I/O.  Python `collections.Counter` values
are modelled as association lists with unique keys, matching dict insertion
order and `Counter.update` / `counter[k] += 1` semantics.
-/

/-! ## Counters (Python `collections.Counter` over string keys) -/

/-- Association-list model of a `collections.Counter` keyed by strings.
Keys are unique by construction (all counters in the program are built by
`incr` / `update` starting from the empty counter). -/
abbrev Counter := List (String × Nat)

/-- Value of a counter at key `k` (0 when absent), like `Counter.__getitem__`. -/
def Counter.get : Counter → String → Nat
  | [], _ => 0
  | (k, v) :: rest, e => if k == e then v else Counter.get rest e

/-- Add `n` to the count at key `k`, like `c[k] += n` on a `Counter`
(updates the first binding in place, or appends a new binding, matching
dict insertion-order semantics). -/
def Counter.incr : Counter → String → Nat → Counter
  | [], k, n => [(k, n)]
  | (k2, v) :: rest, k, n =>
    if k2 == k then (k2, v + n) :: rest else (k2, v) :: Counter.incr rest k n

/-- Pointwise addition `c.update(d)` of Python `Counter`s. -/
def Counter.update (c d : Counter) : Counter :=
  d.foldl (fun acc p => Counter.incr acc p.1 p.2) c

/-- Total of all counts: `sum(c.values())`. -/
def Counter.total (c : Counter) : Nat :=
  (c.map Prod.snd).sum

/-! ## Character and string helpers

Python string primitives used by the source are re-implemented over
`List Char` so that every definition is structurally recursive and
kernel-evaluable.  `lowerChar` models `str.lower` on the ASCII range
(the only range exercised by extension tokens). -/

/-- ASCII lowercasing of one character, modelling Python `str.lower`
restricted to ASCII (non-ASCII case mapping is out of scope): code points
65-90 are shifted by 32, everything else is unchanged. -/
def lowerChar (c : Char) : Char :=
  if 65 ≤ c.toNat && c.toNat ≤ 90 then Char.ofNat (c.toNat + 32) else c

/-- Lowercase a whole string (Python `s.lower()`, ASCII fragment). -/
def lowerStr (s : String) : String :=
  String.mk (s.data.map lowerChar)

/-- Index of the last occurrence of `c` in `cs` (Python `str.rfind`,
with `none` standing for the `-1` result). -/
def rfindChar : List Char → Char → Option Nat
  | [], _ => none
  | a :: as, c =>
    match rfindChar as c with
    | some i => some (i + 1)
    | none => if a == c then some 0 else none

/-- Comparison `dotIndex > sepIndex` of two `rfind` results under the
`none` = `-1` encoding. -/
def idxLt : Option Nat → Option Nat → Bool
  | none, some _ => true
  | some i, some j => decide (i < j)
  | _, none => false

/-- Extension part of `os.path.splitext` (posix variant: separator `/`,
extension separator `.`).  Follows CPython `genericpath._splitext`:
the extension starts at the last dot after the last slash, unless every
character between the slash and that dot is itself a dot (leading-dot
files such as `.bashrc` have no extension). -/
def splitext_ext (p : List Char) : List Char :=
  let sepIdx := rfindChar p '/'
  let dotIdx := rfindChar p '.'
  match dotIdx with
  | none => []
  | some j =>
    if idxLt sepIdx (some j) then
      let filenameStart := match sepIdx with | none => 0 | some k => k + 1
      if ((p.drop filenameStart).take (j - filenameStart)).all (fun c => c == '.') then
        []
      else
        p.drop j
    else []

/-- Python `_ext_of`: lowercased `os.path.splitext(name)[1]`, with the
sentinel `"<noext>"` for an empty extension. -/
def ext_of (name : String) : String :=
  let ext := (splitext_ext name.data).map lowerChar
  if ext.isEmpty then "<noext>" else String.mk ext

/-- Python `'/' .join`-free split: `name.split('/')` over characters. -/
def splitOnSlash : List Char → List (List Char)
  | [] => [[]]
  | c :: cs =>
    let r := splitOnSlash cs
    if c == '/' then [] :: r
    else
      match r with
      | w :: ws => (c :: w) :: ws
      | [] => [[c]]

/-- The archive adapters' `[p for p in name.split('/') if p]`: the
non-empty slash-separated segments of an internal archive path. -/
def splitParts (s : String) : List String :=
  ((splitOnSlash s.data).filter (fun w => !w.isEmpty)).map (fun w => String.mk w)

/-- Python `name.endswith('/')`. -/
def endsWithSlash (s : String) : Bool :=
  match s.data.getLast? with
  | some c => c == '/'
  | none => false

/-- Python `s.endswith(suffix)` (used as `p.lower().endswith(".7z")`). -/
def strEndsWith (s suffix : String) : Bool :=
  suffix.data.isSuffixOf s.data

/-- Python `os.path.basename` (posix): the part after the last slash. -/
def pyBasename (s : String) : String :=
  String.mk ((s.data.reverse.takeWhile (fun c => !(c == '/'))).reverse)

/-! ## Path normalisation (`_normalize_path`) -/

/-- The double-quote character. -/
def dquote : Char := Char.ofNat 34

/-- The single-quote character. -/
def squote : Char := Char.ofNat 39

/-- Drop the longest suffix whose characters satisfy `p`. -/
def dropTrailing (p : Char → Bool) (cs : List Char) : List Char :=
  (cs.reverse.dropWhile p).reverse

/-- Strip characters satisfying `p` from both ends (Python `str.strip`
semantics: ALL matching leading and trailing characters are removed). -/
def stripBy (p : Char → Bool) (cs : List Char) : List Char :=
  dropTrailing p (cs.dropWhile p)

/-- Python `s.strip()` (whitespace at both ends). -/
def pyStrip (s : String) : String :=
  String.mk (stripBy Char.isWhitespace s.data)

/-- Python `s.strip(c)` for a single strip character `c`: removes ALL
leading and trailing occurrences of `c`, not just one. -/
def pyStripChar (s : String) (c : Char) : String :=
  String.mk (stripBy (fun x => x == c) s.data)

/-- Textual stage of `_normalize_path`:
`p.strip().strip('"').strip("'")`. -/
def normalize_strip (p : String) : String :=
  pyStripChar (pyStripChar (pyStrip p) dquote) squote

/-- Python `_normalize_path`.  The environment-dependent steps
(`os.path.expanduser`, `os.path.expandvars`, `os.path.abspath`) are
abstracted as function parameters; the textual stripping stage is
modelled exactly. -/
def normalize_path (expanduser expandvars abspath : String → String) (p : String) : String :=
  abspath (expandvars (expanduser (normalize_strip p)))

/-! ## Tree nodes -/

/-- A tree node, modelling the Python dict
`{"name": ..., "dirs": [...], "ext_counts": Counter(), ...}` with the two
optional keys `perm_denied` and `note` made explicit (absent = `false`
resp. `none`). -/
inductive Node where
  | mk (name : String) (dirs : List Node) (ext_counts : Counter)
       (perm_denied : Bool) (note : Option String)

/-- Display label of a node. -/
def Node.name : Node → String
  | .mk n _ _ _ _ => n

/-- Child subdirectory nodes. -/
def Node.dirs : Node → List Node
  | .mk _ d _ _ _ => d

/-- Extension-count mapping of a node. -/
def Node.ext_counts : Node → Counter
  | .mk _ _ c _ _ => c

/-- Permission-denied flag (the optional `perm_denied` dict key). -/
def Node.perm_denied : Node → Bool
  | .mk _ _ _ b _ => b

/-- Informational note (the optional `note` dict key). -/
def Node.note : Node → Option String
  | .mk _ _ _ _ o => o

/-! ## Shared insertion routine (`_insert_path_into_tree`) -/

/-- Replace the first child named `p` by its image under `f`, leaving all
other children untouched.  This captures the aliasing mutation of the
Python loop, which descends into the first child `d` with
`d["name"] == p` and mutates it in place. -/
def replaceFirstNamed (p : String) (f : Node → Node) : List Node → List Node
  | [] => []
  | d :: ds =>
    if d.name == p then f d :: ds else d :: replaceFirstNamed p f ds

/-- Walk of `_insert_path_into_tree` over the non-final segments: at each
segment descend into the existing child of that name (the first match) or
create and append a fresh child; at the end of the segment list increment
the reached node's `ext_counts` at `ext` by one. -/
def insertSegs : Node → List String → String → Node
  | .mk nm ds c pd nt, [], ext => .mk nm ds (Counter.incr c ext 1) pd nt
  | .mk nm ds c pd nt, p :: ps, ext =>
    if ds.any (fun d => d.name == p) then
      .mk nm (replaceFirstNamed p (fun d => insertSegs d ps ext) ds) c pd nt
    else
      .mk nm (ds ++ [insertSegs (.mk p [] [] false none) ps ext]) c pd nt

/-- Python `_insert_path_into_tree(root, parts, ext)`: iterates over
`parts[:-1]` and increments at the node reached. -/
def insert_path_into_tree (root : Node) (parts : List String) (ext : String) : Node :=
  insertSegs root parts.dropLast ext

/-! ## Aggregation pass (`_accumulate_counts`) -/

mutual
/-- Python `_accumulate_counts`: post-order traversal that merges each
child's (already aggregated) counter into the current node's counter. -/
def accumulate_counts : Node → Node
  | .mk nm ds c pd nt =>
    let ds2 := accumulateList ds
    .mk nm ds2 (ds2.foldl (fun acc d => Counter.update acc d.ext_counts) c) pd nt
/-- Aggregation mapped over a list of children, in order. -/
def accumulateList : List Node → List Node
  | [] => []
  | d :: ds => accumulate_counts d :: accumulateList ds
end

/-! ## Archive adapters

Each adapter is embedded as a function of the archive's flat entry
listing (what `namelist()` / `getmembers()` / `getnames()` / `infolist()`
return), since that listing is the only thing the Python code reads from
the archive handle. -/

/-- A `tarfile` member: its `name` and the result of `isdir()`. -/
structure TarMember where
  name : String
  isdir : Bool
deriving DecidableEq

/-- A `rarfile` info record: its `filename` and the result of `isdir()`. -/
structure RarMember where
  filename : String
  isdir : Bool
deriving DecidableEq

/-- Loop body of `_build_zip_tree`: skip directory markers (trailing
slash), skip names with no non-empty segment, otherwise insert. -/
def zipStep (r : Node) (name : String) : Node :=
  if endsWithSlash name then r
  else
    let parts := splitParts name
    if parts.isEmpty then r
    else insert_path_into_tree r parts (ext_of (parts.getLastD ""))

/-- Python `_build_zip_tree` on the archive's `namelist()`; `zipName` is
`os.path.basename(zip_path)`. -/
def build_zip_tree (zipName : String) (namelist : List String) : Node :=
  accumulate_counts (namelist.foldl zipStep (.mk zipName [] [] false none))

/-- Loop body of `_build_tar_tree`: skip members with `isdir()`, skip
names with no non-empty segment, otherwise insert. -/
def tarStep (r : Node) (m : TarMember) : Node :=
  if m.isdir then r
  else
    let parts := splitParts m.name
    if parts.isEmpty then r
    else insert_path_into_tree r parts (ext_of (parts.getLastD ""))

/-- Python `_build_tar_tree` on the archive's `getmembers()`. -/
def build_tar_tree (tarName : String) (members : List TarMember) : Node :=
  accumulate_counts (members.foldl tarStep (.mk tarName [] [] false none))

/-- Loop body of `_build_7z_tree`: note that, unlike the zip and tar
adapters, the 7z adapter applies NO directory filter to `getnames()`;
only names with no non-empty segment are skipped. -/
def sevenZStep (r : Node) (name : String) : Node :=
  let parts := splitParts name
  if parts.isEmpty then r
  else insert_path_into_tree r parts (ext_of (parts.getLastD ""))

/-- Python `_build_7z_tree` on the archive's `getnames()` (the guarded
`RuntimeError` for a missing `py7zr` is handled by the dispatcher model
below, which only calls this when the capability flag is set). -/
def build_7z_tree (sevenZName : String) (names : List String) : Node :=
  accumulate_counts (names.foldl sevenZStep (.mk sevenZName [] [] false none))

/-- Loop body of `_build_rar_tree`: skip `isdir()` records, skip names
with no non-empty segment, otherwise insert. -/
def rarStep (r : Node) (info : RarMember) : Node :=
  if info.isdir then r
  else
    let parts := splitParts info.filename
    if parts.isEmpty then r
    else insert_path_into_tree r parts (ext_of (parts.getLastD ""))

/-- Python `_build_rar_tree` on the archive's `infolist()`. -/
def build_rar_tree (rarName : String) (infos : List RarMember) : Node :=
  accumulate_counts (infos.foldl rarStep (.mk rarName [] [] false none))

/-! ## Filesystem walk (`_build_fs_tree`) -/

/-- The filesystem as seen by the walk: a file entry, or a directory with
its `os.scandir` listing (in scandir order) and a flag telling whether
listing succeeds (`canList = false` models `PermissionError` raised by
`os.scandir`).  Symbolic links and other special entries are ignored by
the source (`follow_symlinks=False`) and are not modelled. -/
inductive FS where
  | file (name : String)
  | dir (name : String) (entries : List FS) (canList : Bool)

/-- Name of a filesystem entry. -/
def FS.nameOf : FS → String
  | .file n => n
  | .dir n _ _ => n

/-- Whether an entry is a directory (`entry.is_dir(follow_symlinks=False)`). -/
def FS.isDirEntry : FS → Bool
  | .file _ => false
  | .dir _ _ _ => true

/-- Python-style lexicographic comparison of char lists by code point,
used to model `sorted(..., key=lambda p: os.path.basename(p).lower())`. -/
def lexLe : List Char → List Char → Bool
  | [], _ => true
  | _ :: _, [] => false
  | a :: as, b :: bs => if a == b then lexLe as bs else Nat.blt a.toNat b.toNat

/-- Sort key comparison on built child nodes: lowercased name. -/
def nodeKeyLe (a b : Node) : Bool :=
  lexLe (lowerStr a.name).data (lowerStr b.name).data

/-- Stable insertion into a sorted list (a new element goes after all
elements with a key less than or equal to its own). -/
def insertSortedNode (x : Node) : List Node → List Node
  | [] => [x]
  | y :: ys => if nodeKeyLe y x then y :: insertSortedNode x ys else x :: y :: ys

/-- Stable ascending sort by lowercased name, modelling Python
`sorted(subdirs, key=lambda p: os.path.basename(p).lower())` (applied to
the built children, which carry exactly the entry names). -/
def sortNodesByName (l : List Node) : List Node :=
  l.foldl (fun acc x => insertSortedNode x acc) []

/-- Direct per-extension counts of the file entries of one listing
(`direct_exts` in the source), in scandir order. -/
def directCounts (entries : List FS) : Counter :=
  entries.foldl
    (fun c e => match e with
      | .file fn => Counter.incr c (ext_of fn) 1
      | .dir _ _ _ => c) []

mutual
/-- Python `_build_fs_tree`.  A file yields a single node counting its own
extension; a listable directory builds each subdirectory child (sorted
case-insensitively), counts its direct files, and stores the cumulative
counter (direct counts plus every child's cumulative counter); an
unlistable directory yields an empty childless node flagged
`perm_denied`.  (For the top-level single-file case the source classifies
`_ext_of(path)`; since `splitext` only looks after the last slash this
equals `_ext_of` of the base name used here.) -/
def build_fs_tree : FS → Node
  | .file nm => .mk nm [] (Counter.incr [] (ext_of nm) 1) false none
  | .dir nm entries canList =>
    if canList then
      let children := sortNodesByName (buildSubdirs entries)
      let cumulative :=
        children.foldl (fun acc d => Counter.update acc d.ext_counts) (directCounts entries)
      .mk nm children cumulative false none
    else
      .mk nm [] [] true none
/-- Child nodes built from the directory entries of a listing, one per
subdirectory, in listing order. -/
def buildSubdirs : List FS → List Node
  | [] => []
  | .file _ :: rest => buildSubdirs rest
  | .dir nm es ok :: rest => build_fs_tree (.dir nm es ok) :: buildSubdirs rest
end

/-! ## Dispatcher (`build_tree_summary`) -/

/-- Oracle answers for the one (already normalised) path queried by the
dispatcher: the `os.path` predicates, the archive sniffers, the two
optional-capability flags (`_HAS_PY7ZR`, `_HAS_RARFILE`), and the entry
listing each adapter would enumerate. -/
structure World where
  isdir : Bool
  isfile : Bool
  is_zipfile : Bool
  is_tarfile : Bool
  has_py7zr : Bool
  has_rarfile : Bool
  fsTree : FS
  zipEntries : List String
  tarEntries : List TarMember
  sevenZEntries : List String
  rarEntries : List RarMember

/-- Single node for an ordinary (non-container) file, following the
`os.path.isfile` branch of `_build_fs_tree` applied to a path string:
name is `os.path.basename(path) or path`, one count at `_ext_of(path)`. -/
def fs_file_node (p : String) : Node :=
  .mk (if pyBasename p == "" then p else pyBasename p) []
      (Counter.incr [] (ext_of p) 1) false none

/-- Python `build_tree_summary`, starting from the normalised path `p`
(the source first applies `_normalize_path`, modelled separately by
`normalize_path`).  Exceptions raised to the caller (here only the
`ValueError` for a missing path) are modelled with `Except.error`. -/
def build_tree_summary (w : World) (p : String) : Except String Node :=
  if w.isdir then .ok (build_fs_tree w.fsTree)
  else if w.isfile then
    if w.is_zipfile then .ok (build_zip_tree (pyBasename p) w.zipEntries)
    else if w.is_tarfile then .ok (build_tar_tree (pyBasename p) w.tarEntries)
    else if strEndsWith (lowerStr p) ".7z" then
      if w.has_py7zr then .ok (build_7z_tree (pyBasename p) w.sevenZEntries)
      else .ok (.mk (pyBasename p) [] (Counter.incr [] (ext_of p) 1) false
                    (some "Install py7zr to inspect inside this 7z archive."))
    else if strEndsWith (lowerStr p) ".rar" then
      if w.has_rarfile then .ok (build_rar_tree (pyBasename p) w.rarEntries)
      else .ok (.mk (pyBasename p) [] (Counter.incr [] (ext_of p) 1) false
                    (some "Install rarfile to inspect inside this RAR archive."))
    else .ok (fs_file_node p)
  else .error ("Path not found: " ++ p)

/-! ## Derived observation functions

These functions are not part of the source; they observe trees (or the
filesystem model) in order to state the claims. -/

mutual
/-- Grand total of a tree: the sum of `Counter.total` over every node of
the subtree.  For a tree built purely by insertion this is the number of
file entries inserted (each contributing one count at its parent). -/
def grandTotal : Node → Nat
  | .mk _ ds c _ _ => Counter.total c + grandTotalList ds
/-- Sum of `grandTotal` over a list of trees. -/
def grandTotalList : List Node → Nat
  | [] => 0
  | d :: ds => grandTotal d + grandTotalList ds
end

mutual
/-- Number of occurrences of extension key `e` summed over every counter
in the tree. -/
def countExt : Node → String → Nat
  | .mk _ ds c _ _, e => Counter.get c e + countExtList ds e
/-- Sum of `countExt` over a list of trees. -/
def countExtList : List Node → String → Nat
  | [], _ => 0
  | d :: ds, e => countExt d e + countExtList ds e
end

mutual
/-- Every node of a tree (the node itself and all descendants). -/
def allNodes : Node → List Node
  | .mk nm ds c pd nt => .mk nm ds c pd nt :: allNodesList ds
/-- All nodes of a list of trees. -/
def allNodesList : List Node → List Node
  | [] => []
  | d :: ds => allNodes d ++ allNodesList ds
end

/-- First child with the given name, as the insertion loop locates it. -/
def firstChild (n : Node) (p : String) : Option Node :=
  n.dirs.find? (fun d => d.name == p)

/-- Node reached by descending along a list of segment names, always
through the first child of each name. -/
def getPath : Node → List String → Option Node
  | n, [] => some n
  | n, a :: as =>
    match firstChild n a with
    | some c => getPath c as
    | none => none

/-- Counter stored at the end of a segment path (empty when the path does
not exist in the tree). -/
def oldCountsAt (t : Node) (segs : List String) : Counter :=
  match getPath t segs with
  | some m => m.ext_counts
  | none => []

/-- Whether a list of strings has no duplicates (checked with `==`). -/
def distinctStr : List String → Bool
  | [] => true
  | s :: rest => !(rest.any (fun t => t == s)) && distinctStr rest

mutual
/-- Whether every node of the tree has pairwise distinct child names
(no duplicate sibling nodes for one path segment). -/
def uniqueNames : Node → Bool
  | .mk _ ds _ _ _ => distinctStr (ds.map Node.name) && uniqueNamesList ds
/-- The `uniqueNames` check over a list of trees. -/
def uniqueNamesList : List Node → Bool
  | [] => true
  | d :: ds => uniqueNames d && uniqueNamesList ds
end

mutual
/-- Number of files the walk can see in a filesystem subtree: a file
counts one; a listable directory counts its entries; an unlistable
directory contributes nothing (its contents are unknown to the walk). -/
def visibleFileCount : FS → Nat
  | .file _ => 1
  | .dir _ entries ok => if ok then visibleList entries else 0
/-- Sum of `visibleFileCount` over a listing. -/
def visibleList : List FS → Nat
  | [] => 0
  | e :: es => visibleFileCount e + visibleList es
end

/-- Number of file entries directly inside one listing. -/
def fileCount : List FS → Nat
  | [] => 0
  | .file _ :: r => 1 + fileCount r
  | .dir _ _ _ :: r => fileCount r

/-- Sum of `visibleFileCount` over the directory entries of a listing. -/
def dirVisible : List FS → Nat
  | [] => 0
  | .file _ :: r => dirVisible r
  | .dir nm es ok :: r => visibleFileCount (.dir nm es ok) + dirVisible r

/-- Specification-side definition (for comparison with the code): strips
leading and trailing whitespace and then EXACTLY ONE layer of surrounding
quote characters, as the specification's words describe —
one leading and one trailing quote of the same kind are removed when both
are present. -/
def spec_strip_single_layer (p : String) : String :=
  let cs := stripBy Char.isWhitespace p.data
  match cs with
  | c :: rest =>
    if (c == dquote || c == squote) && rest.getLast? == some c then
      String.mk rest.dropLast
    else String.mk cs
  | [] => ""

/-! ## Counter lemmas -/

theorem Counter.total_incr (c : Counter) (k : String) (n : Nat) :
    Counter.total (Counter.incr c k n) = Counter.total c + n := by
  induction c with
  | nil => simp [Counter.incr, Counter.total]
  | cons p rest ih =>
    obtain ⟨k2, v⟩ := p
    by_cases h : (k2 == k) = true
    · simp [Counter.incr, h, Counter.total]; omega
    · simp only [Counter.incr, h, if_false, Bool.false_eq_true]
      simp only [Counter.total, List.map_cons, List.sum_cons] at ih ⊢
      omega

theorem Counter.total_update (c d : Counter) :
    Counter.total (Counter.update c d) = Counter.total c + Counter.total d := by
  induction d generalizing c with
  | nil => simp [Counter.update, Counter.total]
  | cons p rest ih =>
    obtain ⟨k, v⟩ := p
    have h1 : Counter.update c ((k, v) :: rest) = Counter.update (Counter.incr c k v) rest := rfl
    rw [h1, ih, Counter.total_incr]
    simp [Counter.total]
    omega

theorem Counter.get_incr (c : Counter) (k e : String) (n : Nat) :
    Counter.get (Counter.incr c k n) e = Counter.get c e + (if k == e then n else 0) := by
  induction c with
  | nil => simp [Counter.incr, Counter.get]
  | cons p rest ih =>
    obtain ⟨k2, v⟩ := p
    by_cases h : k2 = k
    · subst h
      by_cases h2 : k2 = e
      · subst h2; simp [Counter.incr, Counter.get]
      · simp [Counter.incr, Counter.get, h2]
    · by_cases h2 : k2 = e
      · subst h2
        have h3 : ¬ (k = k2) := fun hh => h hh.symm
        simp [Counter.incr, Counter.get, h, h3]
      · simp [Counter.incr, Counter.get, h, h2, ih]

/-! ## Grand totals and aggregation lemmas -/

theorem grandTotalList_append (l1 l2 : List Node) :
    grandTotalList (l1 ++ l2) = grandTotalList l1 + grandTotalList l2 := by
  induction l1 with
  | nil => simp [grandTotalList]
  | cons d ds ih => simp [grandTotalList, ih]; omega

theorem grandTotalList_eq_sum (l : List Node) :
    grandTotalList l = (l.map grandTotal).sum := by
  induction l with
  | nil => rfl
  | cons d ds ih => simp [grandTotalList, ih]

theorem countExtList_eq_sum (l : List Node) (e : String) :
    countExtList l e = (l.map (fun d => countExt d e)).sum := by
  induction l with
  | nil => rfl
  | cons d ds ih => simp [countExtList, ih]

theorem map_sum_replaceFirst (g : Node → Nat) (A : Nat) (p : String) (f : Node → Node)
    (hf : ∀ d, g (f d) = g d + A) :
    ∀ ds : List Node, ds.any (fun d => d.name == p) = true →
      ((replaceFirstNamed p f ds).map g).sum = (ds.map g).sum + A := by
  intro ds
  induction ds with
  | nil => intro h; simp at h
  | cons d rest ih =>
    intro h
    by_cases hd : (d.name == p) = true
    · simp [replaceFirstNamed, hd, hf d]; omega
    · have hrest : rest.any (fun x => x.name == p) = true := by
        simp only [List.any_cons, hd, Bool.false_or] at h; exact h
      simp [replaceFirstNamed, hd, ih hrest]; omega

theorem insertSegs_name : ∀ (segs : List String) (n : Node) (ext : String),
    (insertSegs n segs ext).name = n.name
  | [], .mk _ _ _ _ _, _ => rfl
  | p :: ps, .mk nm ds c pd nt, ext => by
    simp only [insertSegs]
    by_cases h : (ds.any (fun d => d.name == p)) = true
    · rw [if_pos h]; rfl
    · rw [if_neg h]; rfl

theorem grandTotal_insertSegs : ∀ (segs : List String) (n : Node) (ext : String),
    grandTotal (insertSegs n segs ext) = grandTotal n + 1
  | [], .mk nm ds c pd nt, ext => by
    simp [insertSegs, grandTotal, Counter.total_incr]; omega
  | p :: ps, .mk nm ds c pd nt, ext => by
    simp only [insertSegs]
    by_cases h : (ds.any (fun d => d.name == p)) = true
    · rw [if_pos h]
      simp only [grandTotal]
      rw [grandTotalList_eq_sum, grandTotalList_eq_sum,
        map_sum_replaceFirst grandTotal 1 p _
          (fun d => grandTotal_insertSegs ps d ext) ds h]
      omega
    · rw [if_neg h]
      simp only [grandTotal]
      rw [grandTotalList_append]
      simp only [grandTotalList]
      rw [grandTotal_insertSegs ps _ ext]
      simp [grandTotal, grandTotalList, Counter.total]
      omega

theorem grandTotal_insert_path (r : Node) (parts : List String) (ext : String) :
    grandTotal (insert_path_into_tree r parts ext) = grandTotal r + 1 :=
  grandTotal_insertSegs parts.dropLast r ext

theorem foldl_update_total (l : List Node) (c : Counter) :
    Counter.total (l.foldl (fun acc d => Counter.update acc d.ext_counts) c)
      = Counter.total c + (l.map (fun d => Counter.total d.ext_counts)).sum := by
  induction l generalizing c with
  | nil => simp
  | cons d rest ih =>
    simp only [List.foldl_cons, List.map_cons, List.sum_cons]
    rw [ih, Counter.total_update]
    omega

theorem map_total_accumulateList (ds : List Node)
    (ih : ∀ d ∈ ds, Counter.total (accumulate_counts d).ext_counts = grandTotal d) :
    ((accumulateList ds).map (fun d => Counter.total d.ext_counts)).sum = grandTotalList ds := by
  induction ds with
  | nil => simp [accumulateList, grandTotalList]
  | cons d rest ihl =>
    simp only [accumulateList, List.map_cons, List.sum_cons, grandTotalList]
    rw [ih d (by simp), ihl (fun x hx => ih x (by simp [hx]))]

theorem acc_total : ∀ n : Node, Counter.total (accumulate_counts n).ext_counts = grandTotal n
  | .mk nm ds c pd nt => by
    have ih : ∀ d ∈ ds, Counter.total (accumulate_counts d).ext_counts = grandTotal d :=
      fun d _ => acc_total d
    show Counter.total
        ((accumulateList ds).foldl (fun acc d => Counter.update acc d.ext_counts) c)
      = grandTotal (.mk nm ds c pd nt)
    rw [foldl_update_total, map_total_accumulateList ds ih]
    simp [grandTotal]
termination_by n => sizeOf n
decreasing_by
  simp_wf
  have h9 := List.sizeOf_lt_of_mem ‹_ ∈ _›
  omega

/-! ## Adapter fold lemmas -/

theorem grandTotal_zipStep (r : Node) (name : String) :
    grandTotal (zipStep r name) =
      grandTotal r + (if !(endsWithSlash name) && !(splitParts name).isEmpty then 1 else 0) := by
  by_cases h1 : endsWithSlash name = true
  · simp [zipStep, h1]
  · by_cases h2 : (splitParts name).isEmpty = true
    · simp [zipStep, h1, h2]
    · simp only [zipStep, h1, h2]
      simp only [Bool.not_eq_true] at h1 h2
      simp [h1, h2, insert_path_into_tree, grandTotal_insertSegs]

theorem grandTotal_foldl_zip (entries : List String) (r : Node) :
    grandTotal (entries.foldl zipStep r) =
      grandTotal r
        + (entries.filter (fun n => !(endsWithSlash n) && !(splitParts n).isEmpty)).length := by
  induction entries generalizing r with
  | nil => simp
  | cons e rest ih =>
    simp only [List.foldl_cons]
    rw [ih, grandTotal_zipStep]
    by_cases h : (!(endsWithSlash e) && !(splitParts e).isEmpty) = true
    · simp [List.filter_cons, h]; omega
    · simp [List.filter_cons, h]

theorem grandTotal_tarStep (r : Node) (m : TarMember) :
    grandTotal (tarStep r m) =
      grandTotal r + (if !m.isdir && !(splitParts m.name).isEmpty then 1 else 0) := by
  by_cases h1 : m.isdir = true
  · simp [tarStep, h1]
  · by_cases h2 : (splitParts m.name).isEmpty = true
    · simp [tarStep, h1, h2]
    · simp only [tarStep, h1, h2]
      simp only [Bool.not_eq_true] at h1 h2
      simp [h1, h2, insert_path_into_tree, grandTotal_insertSegs]

theorem grandTotal_foldl_tar (members : List TarMember) (r : Node) :
    grandTotal (members.foldl tarStep r) =
      grandTotal r
        + (members.filter (fun m => !m.isdir && !(splitParts m.name).isEmpty)).length := by
  induction members generalizing r with
  | nil => simp
  | cons e rest ih =>
    simp only [List.foldl_cons]
    rw [ih, grandTotal_tarStep]
    by_cases h : (!e.isdir && !(splitParts e.name).isEmpty) = true
    · simp [List.filter_cons, h]; omega
    · simp [List.filter_cons, h]

theorem grandTotal_sevenZStep (r : Node) (name : String) :
    grandTotal (sevenZStep r name) =
      grandTotal r + (if !(splitParts name).isEmpty then 1 else 0) := by
  by_cases h2 : (splitParts name).isEmpty = true
  · simp [sevenZStep, h2]
  · simp only [sevenZStep, h2]
    simp only [Bool.not_eq_true] at h2
    simp [h2, insert_path_into_tree, grandTotal_insertSegs]

theorem grandTotal_foldl_sevenZ (names : List String) (r : Node) :
    grandTotal (names.foldl sevenZStep r) =
      grandTotal r + (names.filter (fun n => !(splitParts n).isEmpty)).length := by
  induction names generalizing r with
  | nil => simp
  | cons e rest ih =>
    simp only [List.foldl_cons]
    rw [ih, grandTotal_sevenZStep]
    by_cases h : (!(splitParts e).isEmpty) = true
    · simp [List.filter_cons, h]; omega
    · simp [List.filter_cons, h]

theorem grandTotal_rarStep (r : Node) (info : RarMember) :
    grandTotal (rarStep r info) =
      grandTotal r + (if !info.isdir && !(splitParts info.filename).isEmpty then 1 else 0) := by
  by_cases h1 : info.isdir = true
  · simp [rarStep, h1]
  · by_cases h2 : (splitParts info.filename).isEmpty = true
    · simp [rarStep, h1, h2]
    · simp only [rarStep, h1, h2]
      simp only [Bool.not_eq_true] at h1 h2
      simp [h1, h2, insert_path_into_tree, grandTotal_insertSegs]

theorem grandTotal_foldl_rar (infos : List RarMember) (r : Node) :
    grandTotal (infos.foldl rarStep r) =
      grandTotal r
        + (infos.filter (fun i => !i.isdir && !(splitParts i.filename).isEmpty)).length := by
  induction infos generalizing r with
  | nil => simp
  | cons e rest ih =>
    simp only [List.foldl_cons]
    rw [ih, grandTotal_rarStep]
    by_cases h : (!e.isdir && !(splitParts e.filename).isEmpty) = true
    · simp [List.filter_cons, h]; omega
    · simp [List.filter_cons, h]

theorem grandTotal_bare (nm : String) : grandTotal (Node.mk nm [] [] false none) = 0 := by
  simp [grandTotal, grandTotalList, Counter.total]

/-! ## Skipping lemmas: folds ignore filtered-out entries -/

theorem foldl_eq_foldl_filter {α : Type} (f : Node → α → Node) (q : α → Bool)
    (hskip : ∀ r e, q e = false → f r e = r) :
    ∀ (l : List α) (r : Node), l.foldl f r = (l.filter q).foldl f r := by
  intro l
  induction l with
  | nil => intro r; rfl
  | cons e rest ih =>
    intro r
    by_cases h : q e = true
    · simp [List.filter_cons, h, ih]
    · have hf := hskip r e (by simpa using h)
      simp [List.filter_cons, h, ih, hf]

theorem zipStep_skip_marker (r : Node) (n : String) :
    (!(endsWithSlash n)) = false → zipStep r n = r := by
  intro h
  have h1 : endsWithSlash n = true := by simpa using h
  simp [zipStep, h1]

theorem zipStep_skip_empty (r : Node) (n : String) :
    (!(splitParts n).isEmpty) = false → zipStep r n = r := by
  intro h
  have hp : (splitParts n).isEmpty = true := by simpa using h
  by_cases h1 : endsWithSlash n = true <;> simp [zipStep, h1, hp]

theorem tarStep_skip_dir (r : Node) (m : TarMember) :
    (!m.isdir) = false → tarStep r m = r := by
  intro h
  have h1 : m.isdir = true := by simpa using h
  simp [tarStep, h1]

theorem tarStep_skip_empty (r : Node) (m : TarMember) :
    (!(splitParts m.name).isEmpty) = false → tarStep r m = r := by
  intro h
  have hp : (splitParts m.name).isEmpty = true := by simpa using h
  by_cases h1 : m.isdir = true <;> simp [tarStep, h1, hp]

theorem sevenZStep_skip_empty (r : Node) (n : String) :
    (!(splitParts n).isEmpty) = false → sevenZStep r n = r := by
  intro h
  have hp : (splitParts n).isEmpty = true := by simpa using h
  simp [sevenZStep, hp]

theorem rarStep_skip_empty (r : Node) (i : RarMember) :
    (!(splitParts i.filename).isEmpty) = false → rarStep r i = r := by
  intro h
  have hp : (splitParts i.filename).isEmpty = true := by simpa using h
  by_cases h1 : i.isdir = true <;> simp [rarStep, h1, hp]

/-! ## Filesystem walk lemmas -/

theorem visibleList_split : ∀ entries : List FS,
    visibleList entries = fileCount entries + dirVisible entries := by
  intro entries
  induction entries with
  | nil => rfl
  | cons e rest ih =>
    cases e with
    | file nm => simp [visibleList, fileCount, dirVisible, visibleFileCount, ih]; omega
    | dir nm es ok => simp [visibleList, fileCount, dirVisible, ih]; omega

theorem directCounts_foldl (entries : List FS) (c : Counter) :
    Counter.total (entries.foldl
      (fun c e => match e with
        | .file fn => Counter.incr c (ext_of fn) 1
        | .dir _ _ _ => c) c)
      = Counter.total c + fileCount entries := by
  induction entries generalizing c with
  | nil => simp [fileCount]
  | cons e rest ih =>
    cases e with
    | file fn =>
      simp only [List.foldl_cons, fileCount]
      rw [ih, Counter.total_incr]
      omega
    | dir nm es ok =>
      simp only [List.foldl_cons, fileCount]
      rw [ih]

theorem directCounts_total (entries : List FS) :
    Counter.total (directCounts entries) = fileCount entries := by
  have h := directCounts_foldl entries []
  simpa [directCounts, Counter.total] using h

theorem map_sum_insertSortedNode (f : Node → Nat) (x : Node) (l : List Node) :
    ((insertSortedNode x l).map f).sum = f x + (l.map f).sum := by
  induction l with
  | nil => simp [insertSortedNode]
  | cons y ys ih =>
    by_cases h : nodeKeyLe y x = true
    · simp [insertSortedNode, h, ih]; omega
    · simp [insertSortedNode, h]

theorem map_sum_sortFold (f : Node → Nat) (l acc : List Node) :
    ((l.foldl (fun a x => insertSortedNode x a) acc).map f).sum
      = (acc.map f).sum + (l.map f).sum := by
  induction l generalizing acc with
  | nil => simp
  | cons x xs ih =>
    simp only [List.foldl_cons]
    rw [ih, map_sum_insertSortedNode]
    simp
    omega

theorem map_sum_sortNodes (f : Node → Nat) (l : List Node) :
    ((sortNodesByName l).map f).sum = (l.map f).sum := by
  have h := map_sum_sortFold f l []
  simpa [sortNodesByName] using h

theorem subdir_totals (entries : List FS)
    (ih : ∀ e ∈ entries, Counter.total (build_fs_tree e).ext_counts = visibleFileCount e) :
    ((buildSubdirs entries).map (fun d => Counter.total d.ext_counts)).sum
      = dirVisible entries := by
  induction entries with
  | nil => simp [buildSubdirs, dirVisible]
  | cons e rest ihl =>
    cases e with
    | file nm =>
      simp only [buildSubdirs, dirVisible]
      exact ihl (fun x hx => ih x (by simp [hx]))
    | dir nm es ok =>
      simp only [buildSubdirs, dirVisible, List.map_cons, List.sum_cons]
      rw [ih (.dir nm es ok) (by simp), ihl (fun x hx => ih x (by simp [hx]))]

theorem fs_total : ∀ fs : FS, Counter.total (build_fs_tree fs).ext_counts = visibleFileCount fs
  | .file nm => by
    show Counter.total (Counter.incr [] (ext_of nm) 1) = 1
    rw [Counter.total_incr]
    rfl
  | .dir nm entries ok => by
    have ih : ∀ e ∈ entries, Counter.total (build_fs_tree e).ext_counts = visibleFileCount e :=
      fun e _ => fs_total e
    cases ok with
    | false => simp [build_fs_tree, visibleFileCount, Node.ext_counts, Counter.total]
    | true =>
      show Counter.total
          ((sortNodesByName (buildSubdirs entries)).foldl
            (fun acc d => Counter.update acc d.ext_counts) (directCounts entries))
        = visibleFileCount (.dir nm entries true)
      rw [foldl_update_total, map_sum_sortNodes, subdir_totals entries ih, directCounts_total]
      simp [visibleFileCount, visibleList_split]
termination_by fs => sizeOf fs
decreasing_by
  simp_wf
  have h9 := List.sizeOf_lt_of_mem ‹_ ∈ _›
  omega

/-! ## Membership in the node set of a tree -/

theorem self_mem_allNodes (t : Node) : t ∈ allNodes t := by
  cases t with
  | mk nm ds c pd nt => simp [allNodes]

theorem mem_allNodesList (l : List Node) (n : Node) :
    n ∈ allNodesList l ↔ ∃ d ∈ l, n ∈ allNodes d := by
  induction l with
  | nil => simp [allNodesList]
  | cons d ds ih => simp [allNodesList, List.mem_append, ih]

theorem mem_allNodes_of_child (nm : String) (ds : List Node) (c : Counter) (pd : Bool)
    (nt : Option String) (d n : Node) (hd : d ∈ ds) (hn : n ∈ allNodes d) :
    n ∈ allNodes (.mk nm ds c pd nt) := by
  simp only [allNodes, List.mem_cons]
  right
  exact (mem_allNodesList ds n).mpr ⟨d, hd, hn⟩

theorem mem_insertSortedNode (x : Node) (l : List Node) (d : Node) :
    d ∈ insertSortedNode x l ↔ d = x ∨ d ∈ l := by
  induction l with
  | nil => simp [insertSortedNode]
  | cons y ys ih =>
    by_cases h : nodeKeyLe y x = true
    · simp [insertSortedNode, h, ih]; tauto
    · simp [insertSortedNode, h]

theorem mem_sortFold (l acc : List Node) (d : Node) :
    d ∈ l.foldl (fun a x => insertSortedNode x a) acc → d ∈ acc ∨ d ∈ l := by
  induction l generalizing acc with
  | nil => intro h; exact Or.inl h
  | cons x xs ih =>
    intro h
    simp only [List.foldl_cons] at h
    rcases ih (insertSortedNode x acc) h with h2 | h2
    · rcases (mem_insertSortedNode x acc d).mp h2 with h3 | h3
      · right; simp [h3]
      · left; exact h3
    · right; simp [h2]

theorem mem_sortNodes (l : List Node) (d : Node) :
    d ∈ sortNodesByName l → d ∈ l := by
  intro h
  rcases mem_sortFold l [] d h with h2 | h2
  · simp at h2
  · exact h2

theorem mem_buildSubdirs (l : List FS) (d : Node) :
    d ∈ buildSubdirs l → ∃ e ∈ l, d = build_fs_tree e := by
  induction l with
  | nil => intro h; simp [buildSubdirs] at h
  | cons e rest ih =>
    cases e with
    | file nm =>
      intro h
      rcases ih h with ⟨e2, he2, hd⟩
      exact ⟨e2, by simp [he2], hd⟩
    | dir nm es ok =>
      intro h
      simp only [buildSubdirs, List.mem_cons] at h
      rcases h with h | h
      · exact ⟨.dir nm es ok, by simp, h⟩
      · rcases ih h with ⟨e2, he2, hd⟩
        exact ⟨e2, by simp [he2], hd⟩

theorem mem_accumulateList (ds : List Node) (d2 : Node) :
    d2 ∈ accumulateList ds ↔ ∃ d ∈ ds, d2 = accumulate_counts d := by
  induction ds with
  | nil => simp [accumulateList]
  | cons d rest ih =>
    simp only [accumulateList, List.mem_cons, ih]
    constructor
    · rintro (rfl | ⟨x, hx, rfl⟩)
      · exact ⟨d, by simp, rfl⟩
      · exact ⟨x, by simp [hx], rfl⟩
    · rintro ⟨x, hx, rfl⟩
      rcases hx with rfl | hx2
      · left; rfl
      · right; exact ⟨x, hx2, rfl⟩

theorem fs_subtree : ∀ (fs : FS) (n : Node),
    n ∈ allNodes (build_fs_tree fs) → ∃ fs2 : FS, n = build_fs_tree fs2
  | .file nm, n => by
    intro h
    simp only [build_fs_tree, allNodes, allNodesList, List.mem_singleton] at h
    exact ⟨.file nm, by simp [build_fs_tree, h]⟩
  | .dir nm entries ok, n => by
    intro h
    cases ok with
    | false =>
      simp only [build_fs_tree, if_neg (by simp : ¬ (false = true)), allNodes, allNodesList,
        List.mem_singleton] at h
      exact ⟨.dir nm entries false, by simp [build_fs_tree, h]⟩
    | true =>
      have hb : build_fs_tree (.dir nm entries true)
          = .mk nm (sortNodesByName (buildSubdirs entries))
              ((sortNodesByName (buildSubdirs entries)).foldl
                (fun acc d => Counter.update acc d.ext_counts) (directCounts entries))
              false none := rfl
      rw [hb] at h
      simp only [allNodes, List.mem_cons] at h
      rcases h with rfl | h
      · exact ⟨.dir nm entries true, hb⟩
      · rcases (mem_allNodesList _ n).mp h with ⟨d, hd, hn⟩
        have hd2 := mem_sortNodes _ d hd
        rcases mem_buildSubdirs entries d hd2 with ⟨e, he, rfl⟩
        exact fs_subtree e n hn
termination_by fs => sizeOf fs
decreasing_by
  simp_wf
  have h9 := List.sizeOf_lt_of_mem he
  omega

theorem acc_subtree : ∀ (t : Node) (n : Node),
    n ∈ allNodes (accumulate_counts t) →
      ∃ t2, t2 ∈ allNodes t ∧ n = accumulate_counts t2
  | .mk nm ds c pd nt, n => by
    intro h
    have hb : accumulate_counts (.mk nm ds c pd nt)
        = .mk nm (accumulateList ds)
            ((accumulateList ds).foldl (fun acc d => Counter.update acc d.ext_counts) c)
            pd nt := rfl
    rw [hb] at h
    simp only [allNodes, List.mem_cons] at h
    rcases h with rfl | h
    · exact ⟨.mk nm ds c pd nt, self_mem_allNodes _, hb⟩
    · rcases (mem_allNodesList _ n).mp h with ⟨d2, hd2, hn⟩
      rcases (mem_accumulateList ds d2).mp hd2 with ⟨d, hd, rfl⟩
      rcases acc_subtree d n hn with ⟨t2, ht2, rfl⟩
      exact ⟨t2, mem_allNodes_of_child nm ds c pd nt d t2 hd ht2, rfl⟩
termination_by t => sizeOf t
decreasing_by
  simp_wf
  have h9 := List.sizeOf_lt_of_mem hd
  omega

/-! ## Frame lemmas for the insertion routine -/

theorem find_replaceFirst_other (p q : String) (hpq : q ≠ p) (f : Node → Node)
    (hf : ∀ d, (f d).name = d.name) :
    ∀ ds : List Node,
      (replaceFirstNamed p f ds).find? (fun d => d.name == q)
        = ds.find? (fun d => d.name == q) := by
  intro ds
  induction ds with
  | nil => rfl
  | cons d rest ih =>
    by_cases hd : (d.name == p) = true
    · have hdp : d.name = p := by simpa using hd
      have h1 : ((f d).name == q) = false := by
        rw [hf d, hdp]
        exact beq_eq_false_iff_ne.mpr (fun hqq => hpq hqq.symm)
      have h2 : (d.name == q) = false := by
        rw [hdp]
        exact beq_eq_false_iff_ne.mpr (fun hqq => hpq hqq.symm)
      simp only [replaceFirstNamed, hd, if_true]
      rw [List.find?_cons_of_neg _ (by simp [h1]), List.find?_cons_of_neg _ (by simp [h2])]
    · simp only [replaceFirstNamed, hd, if_false, Bool.false_eq_true]
      by_cases hq : (d.name == q) = true
      · rw [List.find?_cons_of_pos _ (by simp [hq]), List.find?_cons_of_pos _ (by simp [hq])]
      · rw [List.find?_cons_of_neg _ (by simp [hq]), List.find?_cons_of_neg _ (by simp [hq])]
        exact ih

theorem find_replaceFirst_self (p : String) (f : Node → Node)
    (hf : ∀ d, (f d).name = d.name) :
    ∀ (ds : List Node) (m : Node), ds.find? (fun d => d.name == p) = some m →
      (replaceFirstNamed p f ds).find? (fun d => d.name == p) = some (f m) := by
  intro ds
  induction ds with
  | nil => intro m h; simp at h
  | cons d rest ih =>
    intro m h
    by_cases hd : (d.name == p) = true
    · rw [List.find?_cons_of_pos _ (by simp [hd])] at h
      have hm : d = m := by injection h
      subst hm
      simp only [replaceFirstNamed, hd, if_true]
      have h1 : ((f d).name == p) = true := by rw [hf d]; exact hd
      rw [List.find?_cons_of_pos _ (by simp [h1])]
    · rw [List.find?_cons_of_neg _ (by simp [hd])] at h
      simp only [replaceFirstNamed, hd, if_false, Bool.false_eq_true]
      rw [List.find?_cons_of_neg _ (by simp [hd])]
      exact ih m h

theorem any_name_find (ds : List Node) (p : String)
    (h : ds.any (fun d => d.name == p) = true) :
    ∃ m, ds.find? (fun d => d.name == p) = some m := by
  rw [List.any_eq_true] at h
  rcases h with ⟨d, hd, hdp⟩
  have h2 : (ds.find? (fun d => d.name == p)).isSome = true :=
    List.find?_isSome.mpr ⟨d, hd, hdp⟩
  exact Option.isSome_iff_exists.mp h2

theorem not_any_find_none (ds : List Node) (p : String)
    (h : (ds.any (fun d => d.name == p)) = false) :
    ds.find? (fun d => d.name == p) = none := by
  rw [List.find?_eq_none]
  intro x hx
  intro hxp
  have h2 : ds.any (fun d => d.name == p) = true := List.any_eq_true.mpr ⟨x, hx, hxp⟩
  rw [h2] at h
  cases h

theorem getPath_freshChain : ∀ (ps : List String) (nm ext : String) (addr : List String),
    ¬ (addr <+: ps) →
      getPath (insertSegs (.mk nm [] [] false none) ps ext) addr = none
  | [], nm, ext, addr => by
    intro h
    cases addr with
    | nil => exact absurd List.nil_prefix h
    | cons a as => rfl
  | q :: qs, nm, ext, addr => by
    intro h
    cases addr with
    | nil => exact absurd List.nil_prefix h
    | cons b bs =>
      have hins : insertSegs (.mk nm [] [] false none) (q :: qs) ext
          = .mk nm [insertSegs (.mk q [] [] false none) qs ext] [] false none := by
        simp only [insertSegs]
        rw [if_neg (by simp)]
        rfl
      rw [hins]
      show (match (Node.mk nm [insertSegs (.mk q [] [] false none) qs ext]
          [] false none).dirs.find? (fun d => d.name == b) with
        | some c => getPath c bs
        | none => none) = none
      by_cases hbq : b = q
      · subst hbq
        have hn : (insertSegs (.mk b [] [] false none) qs ext).name = b :=
          insertSegs_name qs _ ext
        have hfind : (Node.mk nm [insertSegs (.mk b [] [] false none) qs ext]
            [] false none).dirs.find? (fun d => d.name == b)
            = some (insertSegs (.mk b [] [] false none) qs ext) := by
          show List.find? _ [_] = _
          rw [List.find?_cons_of_pos _ (by simp [hn])]
        rw [hfind]
        have hbs : ¬ (bs <+: qs) := by
          intro hpre
          exact h (List.cons_prefix_cons.mpr ⟨rfl, hpre⟩)
        exact getPath_freshChain qs b ext bs hbs
      · have hn : (insertSegs (.mk q [] [] false none) qs ext).name = q :=
          insertSegs_name qs _ ext
        have hfind : (Node.mk nm [insertSegs (.mk q [] [] false none) qs ext]
            [] false none).dirs.find? (fun d => d.name == b) = none := by
          show List.find? _ [_] = _
          rw [List.find?_cons_of_neg _ (by simp [hn]; exact fun hh => hbq hh.symm)]
          rfl
        rw [hfind]

theorem getPath_cons (nm : String) (ds : List Node) (c : Counter) (pd : Bool)
    (nt : Option String) (a : String) (as : List String) :
    getPath (.mk nm ds c pd nt) (a :: as)
      = match ds.find? (fun d => d.name == a) with
        | some c2 => getPath c2 as
        | none => none := rfl

theorem getPath_insertSegs_off :
    ∀ (segs : List String) (n : Node) (ext : String) (addr : List String),
      ¬ (addr <+: segs) → getPath (insertSegs n segs ext) addr = getPath n addr
  | [], .mk nm ds c pd nt, ext, addr => by
    intro h
    cases addr with
    | nil => exact absurd List.nil_prefix h
    | cons a as => rfl
  | p :: ps, .mk nm ds c pd nt, ext, addr => by
    intro h
    cases addr with
    | nil => exact absurd List.nil_prefix h
    | cons a as =>
      have h3 : ¬ (a = p ∧ as <+: ps) := by
        intro h4
        exact h (List.cons_prefix_cons.mpr ⟨h4.1, h4.2⟩)
      simp only [insertSegs]
      by_cases hany : (ds.any (fun d => d.name == p)) = true
      · rw [if_pos hany]
        by_cases hap : a = p
        · subst hap
          have hnp : ¬ (as <+: ps) := fun h5 => h3 ⟨rfl, h5⟩
          rcases any_name_find ds a hany with ⟨m, hm⟩
          rw [getPath_cons, getPath_cons,
            find_replaceFirst_self a _ (fun d => insertSegs_name ps d ext) ds m hm, hm]
          exact getPath_insertSegs_off ps m ext as hnp
        · rw [getPath_cons, getPath_cons,
            find_replaceFirst_other p a hap _ (fun d => insertSegs_name ps d ext) ds]
      · rw [if_neg hany]
        rw [getPath_cons, getPath_cons, List.find?_append]
        by_cases hap : a = p
        · subst hap
          rw [not_any_find_none ds a (by simpa using hany)]
          have hn : (insertSegs (.mk a [] [] false none) ps ext).name = a :=
            insertSegs_name ps _ ext
          rw [List.find?_cons_of_pos _ (by simp [hn])]
          simp only [Option.none_or]
          have hnp : ¬ (as <+: ps) := fun h5 => h3 ⟨rfl, h5⟩
          exact getPath_freshChain ps a ext as hnp
        · have hn : (insertSegs (.mk p [] [] false none) ps ext).name = p :=
            insertSegs_name ps _ ext
          rw [List.find?_cons_of_neg _ (by simp [hn]; exact fun hh => hap hh.symm),
            List.find?_nil, Option.or_none]

theorem oldCountsAt_cons (nm : String) (ds : List Node) (c : Counter) (pd : Bool)
    (nt : Option String) (p : String) (ps : List String) (m : Node)
    (hm : ds.find? (fun d => d.name == p) = some m) :
    oldCountsAt (.mk nm ds c pd nt) (p :: ps) = oldCountsAt m ps := by
  simp [oldCountsAt, getPath_cons, hm]

theorem getPath_insertSegs_terminal : ∀ (segs : List String) (n : Node) (ext : String),
    ∃ n1, getPath (insertSegs n segs ext) segs = some n1 ∧
      n1.ext_counts = Counter.incr (oldCountsAt n segs) ext 1
  | [], .mk nm ds c pd nt, ext =>
    ⟨.mk nm ds (Counter.incr c ext 1) pd nt, rfl, rfl⟩
  | p :: ps, .mk nm ds c pd nt, ext => by
    simp only [insertSegs]
    by_cases hany : (ds.any (fun d => d.name == p)) = true
    · rw [if_pos hany]
      rcases any_name_find ds p hany with ⟨m, hm⟩
      rcases getPath_insertSegs_terminal ps m ext with ⟨n1, hn1, hc⟩
      refine ⟨n1, ?_, ?_⟩
      · rw [getPath_cons,
          find_replaceFirst_self p _ (fun d => insertSegs_name ps d ext) ds m hm]
        exact hn1
      · rw [hc, oldCountsAt_cons nm ds c pd nt p ps m hm]
    · rw [if_neg hany]
      rcases getPath_insertSegs_terminal ps (.mk p [] [] false none) ext with ⟨n1, hn1, hc⟩
      refine ⟨n1, ?_, ?_⟩
      · rw [getPath_cons, List.find?_append, not_any_find_none ds p (by simpa using hany)]
        have hn : (insertSegs (.mk p [] [] false none) ps ext).name = p :=
          insertSegs_name ps _ ext
        rw [List.find?_cons_of_pos _ (by simp [hn])]
        simp only [Option.none_or]
        exact hn1
      · rw [hc]
        have h1 : oldCountsAt (.mk p [] [] false none) ps = [] := by
          cases ps with
          | nil => rfl
          | cons q qs => rfl
        have h2 : oldCountsAt (.mk nm ds c pd nt) (p :: ps) = [] := by
          simp [oldCountsAt, getPath_cons, not_any_find_none ds p (by simpa using hany)]
        rw [h1, h2]

theorem countExtList_append (l1 l2 : List Node) (e : String) :
    countExtList (l1 ++ l2) e = countExtList l1 e + countExtList l2 e := by
  induction l1 with
  | nil => simp [countExtList]
  | cons d ds ih => simp [countExtList, ih]; omega

theorem countExt_insertSegs : ∀ (segs : List String) (n : Node) (ext e : String),
    countExt (insertSegs n segs ext) e = countExt n e + (if ext == e then 1 else 0)
  | [], .mk nm ds c pd nt, ext, e => by
    simp only [insertSegs, countExt]
    rw [Counter.get_incr]
    by_cases h : (ext == e) = true
    · simp only [h, if_true]; omega
    · simp only [h, if_false, Bool.false_eq_true]; omega
  | p :: ps, .mk nm ds c pd nt, ext, e => by
    simp only [insertSegs]
    by_cases hany : (ds.any (fun d => d.name == p)) = true
    · rw [if_pos hany]
      simp only [countExt]
      rw [countExtList_eq_sum, countExtList_eq_sum,
        map_sum_replaceFirst (fun d => countExt d e) (if ext == e then 1 else 0) p _
          (fun d => countExt_insertSegs ps d ext e) ds hany]
      omega
    · rw [if_neg hany]
      simp only [countExt]
      rw [countExtList_append]
      simp only [countExtList]
      rw [countExt_insertSegs ps _ ext e]
      have hz : countExt (.mk p [] [] false none) e = 0 := by
        simp [countExt, countExtList, Counter.get]
      rw [hz]
      omega

/-! ## Uniqueness of sibling names under insertion -/

theorem names_replaceFirst (p : String) (f : Node → Node)
    (hf : ∀ d, (f d).name = d.name) :
    ∀ ds : List Node, (replaceFirstNamed p f ds).map Node.name = ds.map Node.name := by
  intro ds
  induction ds with
  | nil => rfl
  | cons d rest ih =>
    by_cases hd : (d.name == p) = true
    · simp only [replaceFirstNamed, hd, if_true, List.map_cons, hf d]
    · simp only [replaceFirstNamed, hd, if_false, Bool.false_eq_true, List.map_cons, ih]

theorem distinctStr_append_singleton (l : List String) (s : String)
    (hdist : distinctStr l = true) (hnot : l.any (fun t => t == s) = false) :
    distinctStr (l ++ [s]) = true := by
  induction l with
  | nil => simp [distinctStr]
  | cons a rest ih =>
    simp only [List.any_cons, Bool.or_eq_false_iff] at hnot
    simp only [distinctStr, Bool.and_eq_true] at hdist
    have h1 : ((rest ++ [s]).any (fun t => t == a)) = false := by
      rw [List.any_append]
      simp only [Bool.or_eq_false_iff]
      refine ⟨by simpa using hdist.1, ?_⟩
      simp only [List.any_cons, List.any_nil, Bool.or_false]
      have : ¬ (a = s) := by
        intro hh
        rw [hh] at hnot
        simp at hnot
      exact beq_eq_false_iff_ne.mpr (fun hh => this hh.symm)
    simp only [List.cons_append, distinctStr, Bool.and_eq_true]
    exact ⟨by simp [h1], ih hdist.2 hnot.2⟩

theorem any_name_map (ds : List Node) (p : String) :
    ((ds.map Node.name).any fun t => t == p) = ds.any (fun d => d.name == p) := by
  induction ds with
  | nil => rfl
  | cons d rest ih => simp only [List.map_cons, List.any_cons, ih]

theorem uniqueNamesList_replaceFirst (p : String) (f : Node → Node)
    (hfU : ∀ d, uniqueNames d = true → uniqueNames (f d) = true) :
    ∀ ds : List Node, uniqueNamesList ds = true →
      uniqueNamesList (replaceFirstNamed p f ds) = true := by
  intro ds
  induction ds with
  | nil => intro h; exact h
  | cons d rest ih =>
    intro h
    simp only [uniqueNamesList, Bool.and_eq_true] at h
    by_cases hd : (d.name == p) = true
    · simp only [replaceFirstNamed, hd, if_true, uniqueNamesList, Bool.and_eq_true]
      exact ⟨hfU d h.1, h.2⟩
    · simp only [replaceFirstNamed, hd, if_false, Bool.false_eq_true, uniqueNamesList,
        Bool.and_eq_true]
      exact ⟨h.1, ih h.2⟩

theorem uniqueNamesList_append_singleton (ds : List Node) (x : Node)
    (h1 : uniqueNamesList ds = true) (h2 : uniqueNames x = true) :
    uniqueNamesList (ds ++ [x]) = true := by
  induction ds with
  | nil => simp [uniqueNamesList, h2]
  | cons d rest ih =>
    simp only [uniqueNamesList, Bool.and_eq_true] at h1
    simp only [List.cons_append, uniqueNamesList, Bool.and_eq_true]
    exact ⟨h1.1, ih h1.2⟩

theorem uniq_insertSegs : ∀ (segs : List String) (n : Node) (ext : String),
    uniqueNames n = true → uniqueNames (insertSegs n segs ext) = true
  | [], .mk nm ds c pd nt, ext => by
    intro h
    exact h
  | p :: ps, .mk nm ds c pd nt, ext => by
    intro h
    simp only [uniqueNames, Bool.and_eq_true] at h
    simp only [insertSegs]
    by_cases hany : (ds.any (fun d => d.name == p)) = true
    · rw [if_pos hany]
      simp only [uniqueNames, Bool.and_eq_true]
      constructor
      · rw [names_replaceFirst p _ (fun d => insertSegs_name ps d ext) ds]
        exact h.1
      · exact uniqueNamesList_replaceFirst p _
          (fun d hd => uniq_insertSegs ps d ext hd) ds h.2
    · rw [if_neg hany]
      simp only [uniqueNames, Bool.and_eq_true]
      constructor
      · rw [List.map_append]
        simp only [List.map_cons, List.map_nil]
        rw [insertSegs_name ps _ ext]
        refine distinctStr_append_singleton _ _ h.1 ?_
        have hany2 : (ds.any (fun d => d.name == p)) = false := by simpa using hany
        show ((ds.map Node.name).any fun t => t == p) = false
        rw [any_name_map]
        exact hany2
      · refine uniqueNamesList_append_singleton ds _ h.2 ?_
        exact uniq_insertSegs ps (.mk p [] [] false none) ext (by rfl)

/-! ## Stripping lemmas -/

theorem dropWhile_head_not (p : Char → Bool) :
    ∀ (cs : List Char) (a : Char), (cs.dropWhile p).head? = some a → p a = false := by
  intro cs
  induction cs with
  | nil => intro a h; simp [List.dropWhile] at h
  | cons c rest ih =>
    intro a h
    by_cases hc : p c = true
    · rw [List.dropWhile_cons_of_pos hc] at h
      exact ih a h
    · rw [List.dropWhile_cons_of_neg hc] at h
      simp only [List.head?_cons, Option.some_inj] at h
      subst h
      simpa using hc

theorem dropTrailing_getLast_not (p : Char → Bool) (cs : List Char) (a : Char)
    (h : (dropTrailing p cs).getLast? = some a) : p a = false := by
  unfold dropTrailing at h
  rw [List.getLast?_reverse] at h
  exact dropWhile_head_not p cs.reverse a h

theorem dropWhile_suffix_self (p : Char → Bool) (l : List Char) : l.dropWhile p <:+ l :=
  List.dropWhile_suffix p

theorem dropTrailing_prefix (p : Char → Bool) (cs : List Char) : dropTrailing p cs <+: cs := by
  unfold dropTrailing
  have h1 : cs.reverse.dropWhile p <:+ cs.reverse := List.dropWhile_suffix p
  have h2 : (cs.reverse.dropWhile p).reverse <+: cs.reverse.reverse := by
    rw [List.reverse_prefix]
    simpa using h1
  simpa using h2

theorem prefix_head_eq (d cs : List Char) (a : Char)
    (hpre : d <+: cs) (h : d.head? = some a) : cs.head? = some a := by
  obtain ⟨t, ht⟩ := hpre
  subst ht
  cases d with
  | nil => simp at h
  | cons x xs => simpa using h

theorem stripBy_head_not (p : Char → Bool) (cs : List Char) (a : Char)
    (h : (stripBy p cs).head? = some a) : p a = false := by
  unfold stripBy at h
  have hpre := dropTrailing_prefix p (cs.dropWhile p)
  have h2 : (cs.dropWhile p).head? = some a := prefix_head_eq _ _ a hpre h
  exact dropWhile_head_not p cs a h2

theorem stripBy_getLast_not (p : Char → Bool) (cs : List Char) (a : Char)
    (h : (stripBy p cs).getLast? = some a) : p a = false :=
  dropTrailing_getLast_not p _ a h

/-! ## Extension classifier lemmas -/

theorem rfind_none_not_mem : ∀ (cs : List Char) (c : Char),
    rfindChar cs c = none → c ∉ cs := by
  intro cs
  induction cs with
  | nil => intro c _; simp
  | cons a as ih =>
    intro c h
    simp only [rfindChar] at h
    cases h2 : rfindChar as c with
    | some i => rw [h2] at h; simp at h
    | none =>
      rw [h2] at h
      by_cases h3 : (a == c) = true
      · rw [if_pos h3] at h; simp at h
      · intro hmem
        rcases List.mem_cons.mp hmem with rfl | hmem2
        · simp at h3
        · exact (ih c h2) hmem2

theorem rfind_eq_none : ∀ (cs : List Char) (c : Char), c ∉ cs → rfindChar cs c = none := by
  intro cs
  induction cs with
  | nil => intro c _; rfl
  | cons a as ih =>
    intro c h
    have h1 : c ∉ as := fun h2 => h (by simp [h2])
    have h2 : ¬ (a = c) := fun h2 => h (by simp [h2])
    simp only [rfindChar, ih c h1]
    rw [if_neg (by simpa using fun hh => h2 hh)]

theorem rfind_spec : ∀ (cs : List Char) (c : Char) (i : Nat),
    rfindChar cs c = some i →
      ∃ pre post, cs = pre ++ c :: post ∧ pre.length = i ∧ c ∉ post := by
  intro cs
  induction cs with
  | nil => intro c i h; simp [rfindChar] at h
  | cons a as ih =>
    intro c i h
    simp only [rfindChar] at h
    cases h2 : rfindChar as c with
    | some i2 =>
      rw [h2] at h
      simp only [Option.some_inj] at h
      rcases ih c i2 h2 with ⟨pre2, post2, hsplit, hlen, hpost⟩
      exact ⟨a :: pre2, post2, by simp [hsplit], by simp [hlen, ← h], hpost⟩
    | none =>
      rw [h2] at h
      by_cases h3 : (a == c) = true
      · rw [if_pos h3] at h
        simp only [Option.some_inj] at h
        have ha : a = c := by simpa using h3
        subst ha
        exact ⟨[], as, rfl, by simp [← h], rfind_none_not_mem as a h2⟩
      · rw [if_neg h3] at h
        simp at h

theorem toNat_ofNat_valid (n : Nat) (h : n.isValidChar) : (Char.ofNat n).toNat = n := by
  rw [Char.ofNat, dif_pos h]
  rfl

theorem lowerChar_of_not_upper (c : Char) (h : (65 ≤ c.toNat && c.toNat ≤ 90) = false) :
    lowerChar c = c := by
  rw [lowerChar, if_neg (by simp [h])]

theorem lowerChar_upper_toNat (c : Char) (h : (65 ≤ c.toNat && c.toNat ≤ 90) = true) :
    (lowerChar c).toNat = c.toNat + 32 := by
  have h2 : 65 ≤ c.toNat ∧ c.toNat ≤ 90 := by
    simpa only [Bool.and_eq_true, decide_eq_true_eq] using h
  rw [lowerChar, if_pos h]
  exact toNat_ofNat_valid _ (Or.inl (by omega))

theorem lowerChar_eq_dot (c : Char) (h : lowerChar c = '.') : c = '.' := by
  by_cases hc : (65 ≤ c.toNat && c.toNat ≤ 90) = true
  · exfalso
    have h2 : 65 ≤ c.toNat ∧ c.toNat ≤ 90 := by
      simpa only [Bool.and_eq_true, decide_eq_true_eq] using hc
    have h3 := lowerChar_upper_toNat c hc
    rw [h] at h3
    have h4 : ('.').toNat = 46 := by decide
    omega
  · rw [lowerChar_of_not_upper c (by simpa using hc)] at h
    exact h

theorem lowerChar_eq_slash (c : Char) (h : lowerChar c = '/') : c = '/' := by
  by_cases hc : (65 ≤ c.toNat && c.toNat ≤ 90) = true
  · exfalso
    have h2 : 65 ≤ c.toNat ∧ c.toNat ≤ 90 := by
      simpa only [Bool.and_eq_true, decide_eq_true_eq] using hc
    have h3 := lowerChar_upper_toNat c hc
    rw [h] at h3
    have h4 : ('/').toNat = 47 := by decide
    omega
  · rw [lowerChar_of_not_upper c (by simpa using hc)] at h
    exact h

theorem ext_of_no_dot (s : String) (h : '.' ∉ s.data) : ext_of s = "<noext>" := by
  have h2 : rfindChar s.data '.' = none := rfind_eq_none _ _ h
  simp [ext_of, splitext_ext, h2]

theorem splitext_ext_shape (p : List Char) (d : Char) (ds : List Char)
    (h : splitext_ext p = d :: ds) : d = '.' ∧ '.' ∉ ds ∧ '/' ∉ ds := by
  unfold splitext_ext at h
  cases hdot : rfindChar p '.' with
  | none => rw [hdot] at h; simp at h
  | some j =>
    rw [hdot] at h
    rcases rfind_spec p '.' j hdot with ⟨pre, post, hsplit, hlen, hpost⟩
    have hdropj : p.drop j = '.' :: post := by
      rw [hsplit, ← hlen]
      exact List.drop_left pre ('.' :: post)
    cases hsep : rfindChar p '/' with
    | none =>
      rw [hsep] at h
      dsimp only at h
      rw [if_pos (by simp [idxLt])] at h
      by_cases hall :
          (((p.drop 0).take (j - 0)).all (fun c => c == '.')) = true
      · rw [if_pos hall] at h; simp at h
      · rw [if_neg hall] at h
        rw [hdropj] at h
        have hd : d = '.' := by injection h with h1 h2; exact h1.symm
        have hds : ds = post := by injection h with h1 h2; exact h2.symm
        subst hd; subst hds
        refine ⟨rfl, hpost, ?_⟩
        intro hmem
        have hmemp : '/' ∈ p := by
          rw [hsplit]
          simp [hmem]
        exact (rfind_none_not_mem p '/' hsep) hmemp
    | some k =>
      rw [hsep] at h
      dsimp only at h
      by_cases hkj : k < j
      · rw [if_pos (by simp [idxLt, hkj])] at h
        by_cases hall :
            (((p.drop (k + 1)).take (j - (k + 1))).all (fun c => c == '.')) = true
        · rw [if_pos hall] at h; simp at h
        · rw [if_neg hall] at h
          rw [hdropj] at h
          have hd : d = '.' := by injection h with h1 h2; exact h1.symm
          have hds : ds = post := by injection h with h1 h2; exact h2.symm
          subst hd; subst hds
          refine ⟨rfl, hpost, ?_⟩
          rcases rfind_spec p '/' k hsep with ⟨pre2, post2, hsplit2, hlen2, hpost2⟩
          have hpostdrop : ds = p.drop (j + 1) := by
            have hp2 : p = (pre ++ ['.']) ++ ds := by simp [hsplit]
            have hl2 : (pre ++ ['.']).length = j + 1 := by simp [hlen]
            rw [hp2, ← hl2]
            exact (List.drop_left _ _).symm
          have hpost2drop : post2 = p.drop (k + 1) := by
            have hp2 : p = (pre2 ++ ['/']) ++ post2 := by simp [hsplit2]
            have hl2 : (pre2 ++ ['/']).length = k + 1 := by simp [hlen2]
            rw [hp2, ← hl2]
            exact (List.drop_left _ _).symm
          intro hmem
          have hdd : p.drop (j + 1) = (p.drop (k + 1)).drop (j - k) := by
            rw [List.drop_drop]
            congr 1
            omega
          have hmem2 : '/' ∈ post2 := by
            rw [hpost2drop]
            rw [hpostdrop, hdd] at hmem
            exact List.drop_subset _ _ hmem
          exact hpost2 hmem2
      · rw [if_neg (by simp [idxLt, hkj])] at h
        simp at h

theorem ext_of_out_shape (s : String) :
    ext_of s = "<noext>" ∨
      ∃ tail : List Char, (ext_of s).data = '.' :: tail ∧ '.' ∉ tail ∧ '/' ∉ tail := by
  cases hse : splitext_ext s.data with
  | nil => left; simp [ext_of, hse]
  | cons d ds =>
    right
    rcases splitext_ext_shape s.data d ds hse with ⟨hd, hdot, hslash⟩
    subst hd
    have hld : lowerChar '.' = '.' := by decide
    refine ⟨ds.map lowerChar, ?_, ?_, ?_⟩
    · simp [ext_of, hse, hld]
    · intro hmem
      rcases List.mem_map.mp hmem with ⟨x, hx, hlx⟩
      have hx2 := lowerChar_eq_dot x hlx
      subst hx2
      exact hdot hx
    · intro hmem
      rcases List.mem_map.mp hmem with ⟨x, hx, hlx⟩
      have hx2 := lowerChar_eq_slash x hlx
      subst hx2
      exact hslash hx

theorem ext_of_double (s : String) : ext_of (ext_of s) = "<noext>" := by
  rcases ext_of_out_shape s with h | ⟨tail, hdata, hdot, hslash⟩
  · rw [h]; decide
  · generalize hu : ext_of s = u at hdata
    have h1 : rfindChar u.data '/' = none := by
      refine rfind_eq_none _ _ ?_
      rw [hdata]
      intro hmem
      rcases List.mem_cons.mp hmem with h2 | h2
      · exact absurd h2.symm (by decide)
      · exact hslash h2
    have h2 : rfindChar u.data '.' = some 0 := by
      rw [hdata]
      simp only [rfindChar, rfind_eq_none tail '.' hdot]
      rw [if_pos (by decide)]
    simp [ext_of, splitext_ext, h1, h2, idxLt]

/-! ## Listing decompositions used for the permission-denied scenario -/

theorem visibleList_append (l1 l2 : List FS) :
    visibleList (l1 ++ l2) = visibleList l1 + visibleList l2 := by
  induction l1 with
  | nil => simp [visibleList]
  | cons e rest ih => simp [visibleList, ih]; omega

theorem buildSubdirs_append (l1 l2 : List FS) :
    buildSubdirs (l1 ++ l2) = buildSubdirs l1 ++ buildSubdirs l2 := by
  induction l1 with
  | nil => rfl
  | cons e rest ih =>
    cases e with
    | file nm => simp only [List.cons_append, buildSubdirs, List.append_eq, ih]
    | dir nm es ok => simp only [List.cons_append, buildSubdirs, List.append_eq, ih]

/-! ## Claim theorems -/

/-- Claim C1: for every tree returned by the build operation (filesystem
walk `_build_fs_tree`, or insertion followed by `_accumulate_counts` for
archives), every node that is not flagged permission-denied has an
`ext_counts` total equal to the sum of counts contributed by all files in
its subtree: for a filesystem node this is the number of files visible in
the corresponding filesystem subtree, and for an aggregated node it is the
grand total of direct per-node contributions of the corresponding
pre-aggregation subtree. -/
theorem claim_C1_subtree_totals :
    (∀ (fs : FS) (n : Node), n ∈ allNodes (build_fs_tree fs) → n.perm_denied = false →
      ∃ fs2 : FS, n = build_fs_tree fs2 ∧
        Counter.total n.ext_counts = visibleFileCount fs2)
  ∧ (∀ (t n : Node), n ∈ allNodes (accumulate_counts t) →
      ∃ t2 : Node, t2 ∈ allNodes t ∧ n = accumulate_counts t2 ∧
        Counter.total n.ext_counts = grandTotal t2) := by
  constructor
  · intro fs n hmem hperm
    rcases fs_subtree fs n hmem with ⟨fs2, rfl⟩
    exact ⟨fs2, rfl, fs_total fs2⟩
  · intro t n hmem
    rcases acc_subtree t n hmem with ⟨t2, ht2, rfl⟩
    exact ⟨t2, ht2, rfl, acc_total t2⟩

/-- Witness for claim C1 at a concrete one-file directory and a concrete
one-entry insertion tree. -/
theorem claim_C1_subtree_totals_witness :
    (∃ fs2 : FS, build_fs_tree (FS.dir "r" [FS.file "a.txt"] true) = build_fs_tree fs2 ∧
      Counter.total (build_fs_tree (FS.dir "r" [FS.file "a.txt"] true)).ext_counts
        = visibleFileCount fs2)
  ∧ (∃ t2 : Node,
      t2 ∈ allNodes (Node.mk "r" [] [(".txt", 1)] false none) ∧
      accumulate_counts (Node.mk "r" [] [(".txt", 1)] false none) = accumulate_counts t2 ∧
      Counter.total (accumulate_counts (Node.mk "r" [] [(".txt", 1)] false none)).ext_counts
        = grandTotal t2) :=
  ⟨claim_C1_subtree_totals.1 (FS.dir "r" [FS.file "a.txt"] true) _
      (self_mem_allNodes _) rfl,
   claim_C1_subtree_totals.2 (Node.mk "r" [] [(".txt", 1)] false none) _
      (self_mem_allNodes _)⟩

/-- Claim C2 counterexample: a zip archive whose flat listing holds the
single entry `""` (a non-directory entry: it has no trailing slash) yields
a root total of 0, not 1, so the root total does not always equal the
number of non-directory entries of the flat listing. -/
theorem claim_C2_counterexample :
    ¬ (Counter.total (build_zip_tree "a.zip" [""]).ext_counts
        = (([""] : List String).filter (fun n => !(endsWithSlash n))).length) := by
  decide

/-- Claim C2 (amended): for every archive, the aggregated root total
equals the number of entries that are actually inserted: for zip, the
non-directory-marker entries whose path has at least one non-empty
segment; for tar and rar, the non-directory entries with at least one
non-empty segment; for 7z (whose adapter applies no directory filter),
all listed names with at least one non-empty segment. -/
theorem claim_C2_amended_root_totals :
    (∀ (nm : String) (entries : List String),
      Counter.total (build_zip_tree nm entries).ext_counts
        = (entries.filter (fun n => !(endsWithSlash n) && !(splitParts n).isEmpty)).length)
  ∧ (∀ (nm : String) (members : List TarMember),
      Counter.total (build_tar_tree nm members).ext_counts
        = (members.filter (fun m => !m.isdir && !(splitParts m.name).isEmpty)).length)
  ∧ (∀ (nm : String) (names : List String),
      Counter.total (build_7z_tree nm names).ext_counts
        = (names.filter (fun n => !(splitParts n).isEmpty)).length)
  ∧ (∀ (nm : String) (infos : List RarMember),
      Counter.total (build_rar_tree nm infos).ext_counts
        = (infos.filter (fun i => !i.isdir && !(splitParts i.filename).isEmpty)).length) := by
  refine ⟨?_, ?_, ?_, ?_⟩
  · intro nm entries
    show Counter.total
        (accumulate_counts (entries.foldl zipStep (.mk nm [] [] false none))).ext_counts = _
    rw [acc_total, grandTotal_foldl_zip, grandTotal_bare]
    omega
  · intro nm members
    show Counter.total
        (accumulate_counts (members.foldl tarStep (.mk nm [] [] false none))).ext_counts = _
    rw [acc_total, grandTotal_foldl_tar, grandTotal_bare]
    omega
  · intro nm names
    show Counter.total
        (accumulate_counts (names.foldl sevenZStep (.mk nm [] [] false none))).ext_counts = _
    rw [acc_total, grandTotal_foldl_sevenZ, grandTotal_bare]
    omega
  · intro nm infos
    show Counter.total
        (accumulate_counts (infos.foldl rarStep (.mk nm [] [] false none))).ext_counts = _
    rw [acc_total, grandTotal_foldl_rar, grandTotal_bare]
    omega

/-- Claim C3: inserting `a/b/x.txt` and then `a/b/y.txt` into a fresh
root produces exactly one child `a` of the root, exactly one child `b`
of `a`, and a combined count of 2 at `b`; and, in general, the insertion
routine never creates duplicate sibling names (entries sharing a path
prefix resolve to the same node). -/
theorem claim_C3_prefix_sharing :
    (∀ (nm : String) (c : Counter) (pd : Bool) (nt : Option String),
      ∃ a b : Node,
        (insert_path_into_tree
          (insert_path_into_tree (.mk nm [] c pd nt)
            (splitParts "a/b/x.txt") (ext_of "x.txt"))
          (splitParts "a/b/y.txt") (ext_of "y.txt")).dirs = [a]
        ∧ a.name = "a" ∧ a.dirs = [b] ∧ b.name = "b"
        ∧ Counter.total b.ext_counts = 2)
  ∧ (∀ (t : Node) (parts : List String) (ext : String),
      uniqueNames t = true → uniqueNames (insert_path_into_tree t parts ext) = true) := by
  constructor
  · intro nm c pd nt
    exact ⟨.mk "a" [.mk "b" [] [(".txt", 2)] false none] [] false none,
      .mk "b" [] [(".txt", 2)] false none, rfl, rfl, rfl, rfl, rfl⟩
  · intro t parts ext h
    exact uniq_insertSegs parts.dropLast t ext h

/-- Witness for claim C3 at a fresh root with unique names. -/
theorem claim_C3_prefix_sharing_witness :
    uniqueNames (Node.mk "r" [] [] false none) = true ∧
    uniqueNames
      (insert_path_into_tree (Node.mk "r" [] [] false none) ["a", "b.txt"] ".txt") = true :=
  ⟨by decide, claim_C3_prefix_sharing.2 _ _ _ (by decide)⟩

/-- Claim C4 counterexample: the classifier is not idempotent: applied to
its own output `".txt"` (for input `"x.txt"`) it yields `"<noext>"`, not
`".txt"` again. -/
theorem claim_C4_counterexample :
    ¬ (ext_of (ext_of "x.txt") = ext_of "x.txt") := by
  decide

/-- Claim C4 (amended): the classifier is case-insensitive
(`"FILE.TXT"` and `"file.txt"` classify the same), a name with no dot
yields the sentinel, and the sentinel is a fixed point — but the
classifier is not idempotent: a second application always collapses to
the sentinel (in particular on real extensions such as `".txt"`). -/
theorem claim_C4_amended_classifier :
    ext_of "FILE.TXT" = ext_of "file.txt"
  ∧ (∀ s : String, '.' ∉ s.data → ext_of s = "<noext>")
  ∧ ext_of "<noext>" = "<noext>"
  ∧ (∀ s : String, ext_of (ext_of s) = "<noext>") :=
  ⟨by decide, ext_of_no_dot, by decide, ext_of_double⟩

/-- Witness for claim C4 (amended) at the dot-free name `"noext"`. -/
theorem claim_C4_amended_classifier_witness :
    ('.' ∉ ("noext" : String).data) ∧ ext_of "noext" = "<noext>" :=
  ⟨by decide, claim_C4_amended_classifier.2.1 "noext" (by decide)⟩

/-- Claim C5 counterexample: processing the directory-marker entry
`"docs/"` creates NO node at all — the zip adapter skips the entry
entirely, so no node named `docs` is created or located. -/
theorem claim_C5_counterexample :
    ¬ (∃ d : Node, d ∈ (build_zip_tree "a.zip" ["docs/"]).dirs ∧ d.name = "docs") := by
  intro hex
  rcases hex with ⟨d, hd, _⟩
  have h : (build_zip_tree "a.zip" ["docs/"]).dirs = [] := rfl
  rw [h] at hd
  exact (List.not_mem_nil d) hd

/-- Claim C5 (amended): a trailing-separator (directory-marker) entry in
a zip archive, and an `isdir` member in a tar archive, contribute no
extension count anywhere and create no node: the adapters skip such
entries entirely, so the built tree is the same as if they were absent;
in particular a zip with only the entry `"docs/"` yields a bare root. -/
theorem claim_C5_amended_markers_skipped :
    (∀ (nm : String) (entries : List String),
      build_zip_tree nm entries
        = build_zip_tree nm (entries.filter (fun n => !(endsWithSlash n))))
  ∧ (∀ (nm : String) (members : List TarMember),
      build_tar_tree nm members
        = build_tar_tree nm (members.filter (fun m => !m.isdir)))
  ∧ build_zip_tree "a.zip" ["docs/"] = Node.mk "a.zip" [] [] false none := by
  refine ⟨?_, ?_, rfl⟩
  · intro nm entries
    exact congrArg accumulate_counts
      (foldl_eq_foldl_filter zipStep _ zipStep_skip_marker entries _)
  · intro nm members
    exact congrArg accumulate_counts
      (foldl_eq_foldl_filter tarStep _ tarStep_skip_dir members _)

/-- Claim C6: when the dispatcher is given a file whose (lowercased)
path ends in `.7z` (resp. `.rar`) and the corresponding optional decoder
is not available, it returns — with no exception — a root node whose
counter has exactly one entry, a count of 1 at the archive's own
classified extension, together with a non-empty note and no children. -/
theorem claim_C6_capability_fallback :
    (∀ (w : World) (p : String),
      w.isdir = false → w.isfile = true → w.is_zipfile = false → w.is_tarfile = false →
      strEndsWith (lowerStr p) ".7z" = true → w.has_py7zr = false →
      ∃ n : Node, build_tree_summary w p = .ok n
        ∧ n.ext_counts = [(ext_of p, 1)]
        ∧ Counter.total n.ext_counts = 1
        ∧ n.dirs = []
        ∧ ∃ s : String, n.note = some s ∧ s ≠ "")
  ∧ (∀ (w : World) (p : String),
      w.isdir = false → w.isfile = true → w.is_zipfile = false → w.is_tarfile = false →
      strEndsWith (lowerStr p) ".7z" = false → strEndsWith (lowerStr p) ".rar" = true →
      w.has_rarfile = false →
      ∃ n : Node, build_tree_summary w p = .ok n
        ∧ n.ext_counts = [(ext_of p, 1)]
        ∧ Counter.total n.ext_counts = 1
        ∧ n.dirs = []
        ∧ ∃ s : String, n.note = some s ∧ s ≠ "") := by
  constructor
  · intro w p h1 h2 h3 h4 h5 h6
    refine ⟨.mk (pyBasename p) [] (Counter.incr [] (ext_of p) 1) false
      (some "Install py7zr to inspect inside this 7z archive."), ?_, rfl, rfl, rfl,
      "Install py7zr to inspect inside this 7z archive.", rfl, by decide⟩
    simp [build_tree_summary, h1, h2, h3, h4, h5, h6]
  · intro w p h1 h2 h3 h4 h5 h6 h7
    refine ⟨.mk (pyBasename p) [] (Counter.incr [] (ext_of p) 1) false
      (some "Install rarfile to inspect inside this RAR archive."), ?_, rfl, rfl, rfl,
      "Install rarfile to inspect inside this RAR archive.", rfl, by decide⟩
    simp [build_tree_summary, h1, h2, h3, h4, h5, h6, h7]

/-- Witness for claim C6 at concrete worlds with both decoders absent. -/
theorem claim_C6_capability_fallback_witness :
    (∃ n : Node,
      build_tree_summary
        ⟨false, true, false, false, false, false, FS.file "x", [], [], [], []⟩ "a.7z" = .ok n
      ∧ n.ext_counts = [(ext_of "a.7z", 1)]
      ∧ Counter.total n.ext_counts = 1
      ∧ n.dirs = []
      ∧ ∃ s : String, n.note = some s ∧ s ≠ "")
  ∧ (∃ n : Node,
      build_tree_summary
        ⟨false, true, false, false, false, false, FS.file "x", [], [], [], []⟩ "a.rar" = .ok n
      ∧ n.ext_counts = [(ext_of "a.rar", 1)]
      ∧ Counter.total n.ext_counts = 1
      ∧ n.dirs = []
      ∧ ∃ s : String, n.note = some s ∧ s ≠ "") :=
  ⟨claim_C6_capability_fallback.1 _ "a.7z" rfl rfl rfl rfl (by decide) rfl,
   claim_C6_capability_fallback.2 _ "a.rar" rfl rfl rfl rfl (by decide) (by decide) rfl⟩

/-- Claim C7: a directory whose listing raises a permission error yields
a flagged, childless node with empty counts; an unlistable directory
contributes zero visible files, so removing it from a listing leaves the
parent's total unchanged (ancestor totals are unaffected); sibling
directories are built independently and their nodes are identical whether
or not the denied directory is present; and every built node's total is
fully correct (equal to the visible file count of its subtree). -/
theorem claim_C7_permission_denied :
    (∀ (nm : String) (entries : List FS),
      build_fs_tree (.dir nm entries false) = Node.mk nm [] [] true none)
  ∧ (∀ (dn : String) (dents : List FS), visibleFileCount (.dir dn dents false) = 0)
  ∧ (∀ (nm dn : String) (pre post dents : List FS),
      Counter.total
        (build_fs_tree (.dir nm (pre ++ FS.dir dn dents false :: post) true)).ext_counts
      = Counter.total (build_fs_tree (.dir nm (pre ++ post) true)).ext_counts)
  ∧ (∀ (dn : String) (pre post dents : List FS),
      buildSubdirs (pre ++ FS.dir dn dents false :: post)
        = buildSubdirs pre ++ Node.mk dn [] [] true none :: buildSubdirs post)
  ∧ (∀ fs : FS, Counter.total (build_fs_tree fs).ext_counts = visibleFileCount fs) := by
  refine ⟨fun nm entries => rfl, fun dn dents => rfl, ?_, ?_, fs_total⟩
  · intro nm dn pre post dents
    rw [fs_total, fs_total]
    show visibleList (pre ++ FS.dir dn dents false :: post) = visibleList (pre ++ post)
    rw [visibleList_append, visibleList_append]
    simp [visibleList, visibleFileCount]
  · intro dn pre post dents
    rw [buildSubdirs_append]
    rfl

/-- Claim C8 counterexample: `_normalize_path` strips ALL surrounding
double quotes, not exactly a single layer: on the doubly quoted input it
disagrees with the single-layer stripping the specification describes. -/
theorem claim_C8_counterexample :
    ¬ (normalize_strip "\"\"a\"\"" = spec_strip_single_layer "\"\"a\"\"") := by
  decide

/-- Claim C8 (amended): the normaliser strips leading and trailing
whitespace and then ALL (not just one) surrounding double-quote
characters, and then all surrounding single-quote characters: after the
quote-stripping stage no stripped quote character remains at either end,
and a doubly quoted input loses every quote layer. -/
theorem claim_C8_amended_strip :
    (∀ (s : String) (c a : Char),
      ((pyStripChar s c).data.head? = some a → (a == c) = false)
      ∧ ((pyStripChar s c).data.getLast? = some a → (a == c) = false))
  ∧ normalize_strip "\"\"a\"\"" = "a"
  ∧ normalize_strip "  \"x\"  " = "x"
  ∧ (∀ (eu ev ab : String → String) (p : String),
      normalize_path eu ev ab p = ab (ev (eu (normalize_strip p)))) := by
  refine ⟨?_, by decide, by decide, fun eu ev ab p => rfl⟩
  intro s c a
  constructor
  · intro h
    exact stripBy_head_not (fun x => x == c) s.data a h
  · intro h
    exact stripBy_getLast_not (fun x => x == c) s.data a h

/-- Witness for claim C8 (amended) at a concrete quoted string. -/
theorem claim_C8_amended_strip_witness :
    (pyStripChar "x\"" dquote).data.head? = some 'x' ∧ (('x' == dquote) = false) :=
  ⟨by decide, (claim_C8_amended_strip.1 "x\"" dquote 'x').1 (by decide)⟩

/-- Claim C9: the insertion routine has a frame property: descending by
any address that is not a prefix of the inserted (non-final) segment path
reaches the same node before and after the insertion; the node reached at
the end of the non-final segments exists afterwards and carries exactly
the old counter with one increment at the inserted extension; and
globally, exactly one count increment occurs in the whole tree, at the
inserted extension key. -/
theorem claim_C9_insert_frame :
    (∀ (t : Node) (parts : List String) (ext : String) (addr : List String),
      ¬ (addr <+: parts.dropLast) →
        getPath (insert_path_into_tree t parts ext) addr = getPath t addr)
  ∧ (∀ (t : Node) (parts : List String) (ext : String),
      ∃ n1 : Node,
        getPath (insert_path_into_tree t parts ext) parts.dropLast = some n1
        ∧ n1.ext_counts = Counter.incr (oldCountsAt t parts.dropLast) ext 1)
  ∧ (∀ (t : Node) (parts : List String) (ext e : String),
      countExt (insert_path_into_tree t parts ext) e
        = countExt t e + (if ext == e then 1 else 0)) :=
  ⟨fun t parts ext addr h => getPath_insertSegs_off parts.dropLast t ext addr h,
   fun t parts ext => getPath_insertSegs_terminal parts.dropLast t ext,
   fun t parts ext e => countExt_insertSegs parts.dropLast t ext e⟩

/-- Witness for claim C9 at a concrete off-path address. -/
theorem claim_C9_insert_frame_witness :
    (¬ ((["z"] : List String) <+: (["a", "b.txt"] : List String).dropLast)) ∧
    getPath (insert_path_into_tree (Node.mk "r" [] [] false none) ["a", "b.txt"] ".txt") ["z"]
      = getPath (Node.mk "r" [] [] false none) ["z"] :=
  ⟨by decide, claim_C9_insert_frame.1 _ _ _ ["z"] (by decide)⟩

/-- Claim C10: an archive entry whose internal path splits into zero
non-empty segments is skipped by every adapter: removing all such entries
from the flat listing leaves the built tree unchanged, so such an entry
creates no node and increments no count anywhere. -/
theorem claim_C10_empty_segments_skipped :
    (∀ (nm : String) (entries : List String),
      build_zip_tree nm entries
        = build_zip_tree nm (entries.filter (fun n => !(splitParts n).isEmpty)))
  ∧ (∀ (nm : String) (members : List TarMember),
      build_tar_tree nm members
        = build_tar_tree nm (members.filter (fun m => !(splitParts m.name).isEmpty)))
  ∧ (∀ (nm : String) (names : List String),
      build_7z_tree nm names
        = build_7z_tree nm (names.filter (fun n => !(splitParts n).isEmpty)))
  ∧ (∀ (nm : String) (infos : List RarMember),
      build_rar_tree nm infos
        = build_rar_tree nm (infos.filter (fun i => !(splitParts i.filename).isEmpty))) := by
  refine ⟨?_, ?_, ?_, ?_⟩
  · intro nm entries
    exact congrArg accumulate_counts
      (foldl_eq_foldl_filter zipStep _ zipStep_skip_empty entries _)
  · intro nm members
    exact congrArg accumulate_counts
      (foldl_eq_foldl_filter tarStep _ tarStep_skip_empty members _)
  · intro nm names
    exact congrArg accumulate_counts
      (foldl_eq_foldl_filter sevenZStep _ sevenZStep_skip_empty names _)
  · intro nm infos
    exact congrArg accumulate_counts
      (foldl_eq_foldl_filter rarStep _ rarStep_skip_empty infos _)
